import Mathlib

/-!
Shallow embedding of `src/DependencyScanner.py` (VAM-Dependency-Scanner).

Strings are modelled as `List Char` (`Str`).  Python functions are translated
one-to-one:

* `pyBasename`   — `os.path.basename` on POSIX paths (part after the last `/`);
* `splitextStem` — `os.path.splitext(...)[0]` on a separator-free filename
  (split at the last `.` unless every preceding character is a dot);
* `stemOf`       — `splitext(basename(f))[0]`, the identifier of a package file;
* `pyIsDigit`    — `str.isdigit` restricted to ASCII digits (the identifiers in
  this ecosystem are ASCII; on ASCII input Python's `isdigit`/`int` agree with
  this model and `int()` cannot raise);
* `pyIsSpace`    — `str.isspace` (ASCII whitespace model);
* `strToNat`     — `int(...)` on a digit string;
* `splitOnCh`    — `str.split(c)` keeping empty pieces;
* `find_dependency_match`, `check_name_variation`, `getAllVars`,
  `checkMissingReferences`, and the preset scanner follow the source line by
  line; each definition's doc comment names the lines it embeds.
-/

abbrev Str := List Char

/-- `os.path.basename` for POSIX paths: everything after the last `/`. -/
def pyBasename (p : Str) : Str :=
  p.foldl (fun acc c => if c = '/' then [] else acc ++ [c]) []

/-- Index of the last occurrence of `c` in `s` (Python `str.rfind`). -/
def lastIdxOf (c : Char) : Str → Option Nat
  | [] => none
  | x :: rest =>
    match lastIdxOf c rest with
    | some p => some (p + 1)
    | none => if x = c then some 0 else none

/-- `os.path.splitext(s)[0]` for a separator-free filename: split at the last
dot, unless all characters before that dot are dots (leading dots of the
basename are ignored, as in CPython's `genericpath._splitext`). -/
def splitextStem (s : Str) : Str :=
  match lastIdxOf '.' s with
  | none => s
  | some d => if (s.take d).any (fun ch => ch != '.') then s.take d else s

/-- `splitext(basename(f))[0]`: the package identifier of a file path
(DependencyScanner.py line 176 and friends). -/
def stemOf (f : Str) : Str := splitextStem (pyBasename f)

/-- The literal `'.latest'` (7 characters). -/
def latest7 : Str := ['.', 'l', 'a', 't', 'e', 's', 't']

/-- The literal `'latest'`. -/
def latestWord : Str := ['l', 'a', 't', 'e', 's', 't']

/-- Python `str.isdigit` on ASCII strings: nonempty and all digits. -/
def pyIsDigit (s : Str) : Bool := !s.isEmpty && s.all Char.isDigit

/-- Python `int(...)` on a digit string. -/
def strToNat (s : Str) : Nat := s.foldl (fun acc c => 10 * acc + (c.toNat - '0'.toNat)) 0

/-- Python `str.isspace`: nonempty and all whitespace. -/
def pyIsSpace (s : Str) : Bool := !s.isEmpty && s.all Char.isWhitespace

/-- Python `str.split(c)`: split on every occurrence of `c`, keeping empty
pieces; the result is always nonempty. -/
def splitOnCh (c : Char) : Str → List Str
  | [] => [[]]
  | x :: rest =>
    match splitOnCh c rest with
    | [] => [[]]
    | h :: t => if x = c then [] :: h :: t else (x :: h) :: t

/-- `dependency.split('.')`. -/
def splitOnDot (s : Str) : List Str := splitOnCh '.' s

/-- `'.'.join(parts)`. -/
def joinDots (parts : List Str) : Str := List.intercalate ['.'] parts

/-- Python string `<` (lexicographic by code point). -/
def strLtB : Str → Str → Bool
  | [], [] => false
  | [], _ :: _ => true
  | _ :: _, [] => false
  | x :: xs, y :: ys => if x < y then true else if y < x then false else strLtB xs ys

/-- Python tuple `<` on `(int, str)` pairs, as used by
`matching_files.sort(reverse=True)` (lines 198, 219). -/
def tupLtB (a b : Nat × Str) : Bool :=
  decide (a.1 < b.1) || (decide (a.1 = b.1) && strLtB a.2 b.2)

/-- The value at index 0 after `matching_files.sort(reverse=True)`: the maximum
of the list under the Python tuple order.  (Tuples that compare equal are
identical, so any maximal element has the same value as `sorted[0]`.) -/
def maxTup : List (Nat × Str) → Option (Nat × Str)
  | [] => none
  | p :: rest =>
    match maxTup rest with
    | none => some p
    | some q => if tupLtB p q then some q else some p

/-- The version-collection loop of `find_dependency_match`
(lines 185–194 and 207–215): for each source file whose identifier starts with
`base_name + '.'` and whose remaining suffix is all digits, record
`(int(version_part), source_file)`. -/
def collectMatches (base : Str) (sourceVarFiles : List Str) : List (Nat × Str) :=
  sourceVarFiles.filterMap (fun source_file =>
    let source_name := stemOf source_file
    if (base ++ ['.']).isPrefixOf source_name then
      let version_part := source_name.drop (base.length + 1)
      if pyIsDigit version_part then some (strToNat version_part, source_file) else none
    else none)

/-- `find_dependency_match` (lines 172–222): exact identifier match first;
then, for a name ending in `.latest`, the numerically highest version of the
stripped base; then the same highest-version search on the name with its last
dot-segment dropped; otherwise no match. -/
def find_dependency_match (dependency : Str) (sourceVarFiles : List Str) : Option Str :=
  match sourceVarFiles.find? (fun f => decide (stemOf f = dependency)) with
  | some f => some f
  | none =>
    let viaLatest : Option Str :=
      if latest7.isSuffixOf dependency then
        match maxTup (collectMatches (dependency.take (dependency.length - 7)) sourceVarFiles) with
        | some m => some m.2
        | none => none
      else none
    match viaLatest with
    | some f => some f
    | none =>
      let parts := splitOnDot dependency
      if 1 < parts.length then
        match maxTup (collectMatches (joinDots parts.dropLast) sourceVarFiles) with
        | some m => some m.2
        | none => none
      else none

/-- `check_name_variation` (lines 24–30): strip a trailing integer or `latest`
segment to get the base name, then test membership of the name itself or of
`base + '.latest'` in the dependency-key list. -/
def check_name_variation (varName : Str) (dependenciesList : List Str) : Bool :=
  let parts := splitOnDot varName
  let baseName :=
    if pyIsDigit (parts.getLastD []) || decide (parts.getLastD [] = latestWord) then
      joinDots parts.dropLast
    else varName
  decide (varName ∈ dependenciesList) || decide (baseName ++ latest7 ∈ dependenciesList)

/-! ### Preset scanner

`getPresetDependencies` (lines 70–74) runs
`re.findall(r'"([^"]+):/[^"]*"', text)` and deduplicates the captures.

Regex semantics embedded here: `re.findall` scans left to right for
non-overlapping matches.  A match must start at a `"`; `[^"]+` cannot cross a
quote, so the closing `"` of a match is the very next quote character, and the
content between the two quotes is quote-free.  The group `([^"]+)` is greedy,
so backtracking yields the longest nonempty prefix `g` of the content that is
followed by the literal `:/` — that is, the content up to its LAST occurrence
of `:/` at an index ≥ 1 (`[^"]*` then consumes the remainder of the content
and the closing quote matches).  If an attempt at a quote fails, the engine
advances; the next possible start is the following quote character.  After a
successful match, scanning resumes after the closing quote.

The text is therefore processed as the list of segments between quote
characters, alternating between an "outside" segment and a candidate content
segment, which is what `scanSegs` does on `splitOnCh '"' text`. -/

/-- `text.split('"')`. -/
def splitOnQuote (s : Str) : List Str := splitOnCh '"' s

/-- Does the string start with the two-character substring `:/`? -/
def startsSC : Str → Bool
  | c1 :: c2 :: _ => c1 == ':' && c2 == '/'
  | _ => false

/-- Index of the last occurrence of the two-character substring `:/`. -/
def lastSC : Str → Option Nat
  | [] => none
  | c :: rest =>
    match lastSC rest with
    | some p => some (p + 1)
    | none => if startsSC (c :: rest) then some 0 else none

/-- The capture of `"([^"]+):/[^"]*"` on a quote-free content segment, if the
segment matches: the content up to the last occurrence of `:/` at index ≥ 1. -/
def groupOf (content : Str) : Option Str :=
  match lastSC content with
  | some p => if 1 ≤ p then some (content.take p) else none
  | none => none

/-- Scanner over the segments of `text.split('"')`.  The flag is `true` when
the head segment sits directly after an (unconsumed) quote character and is a
candidate match content; it is `false` when the head segment is outside any
match.  A content segment needs a following quote to close the match; a
segment that fails to match makes the engine retry from the closing quote,
which turns the next segment into content. -/
def scanSegs : Bool → List Str → List Str
  | _, [] => []
  | _, [_] => []
  | true, content :: rest =>
    (match groupOf content with
     | some g => g :: scanSegs false rest
     | none => scanSegs true rest)
  | false, _ :: rest => scanSegs true rest

/-- `re.findall(r'"([^"]+):/[^"]*"', text)`: the list of captured names, in
match order. -/
def scanPresets (text : Str) : List Str := scanSegs false (splitOnQuote text)

/-- `set(re.findall(...))` for one preset file (line 74): the deduplicated
captures. -/
def getPresetDependencies (text : Str) : List Str := (scanPresets text).dedup

/-! ### Package index builder (`getAllVars`, lines 108–157)

The filesystem is abstracted: `vars` is the list of discovered package-file
paths and `manifest` is the per-file outcome of `getDependencies` /
`getMetaDependencies` (lines 32–48 and 160–170): `none` models the
`(error, set())` return (manifest absent, malformed or unreadable), and
`some deps` the `(None, deps)` success. -/

/-- `allDependencies[key].update({dependent})` with dict-of-sets semantics
(lines 145–149): append the dependent to the key's set if absent, create the
key otherwise. -/
def addEdge (m : List (Str × List Str)) (key dependent : Str) : List (Str × List Str) :=
  match m with
  | [] => [(key, [dependent])]
  | (k, ds) :: rest =>
    if k = key then (k, if dependent ∈ ds then ds else ds ++ [dependent]) :: rest
    else (k, ds) :: addEdge rest key dependent

/-- Merge one file's dependency keys into the edge mapping (lines 143–149);
the recorded dependent is `basename(varFilename)`. -/
def addFileEdges (m : List (Str × List Str)) (deps : List Str) (dependent : Str) :
    List (Str × List Str) :=
  deps.foldl (fun acc key => addEdge acc key dependent) m

/-- `getAllVars` (lines 108–157): every discovered file contributes its
identifier (filename, extension stripped) to the var list (lines 123–127,
unconditionally); a file whose manifest read fails (`error` set) or declares
no dependencies contributes no edges (lines 136–141). -/
def getAllVars (manifest : Str → Option (List Str)) (vars : List Str) :
    List Str × List (Str × List Str) :=
  let allVarList := vars.map stemOf
  let allDependencies := vars.foldl (fun acc varFilename =>
    match manifest varFilename with
    | none => acc
    | some dependencies =>
      if dependencies.length = 0 then acc
      else addFileEdges acc dependencies (pyBasename varFilename)) []
  (allVarList, allDependencies)

/-! ### Resolution orchestrator (`checkMissingReferences`, lines 224–324)

The classification loop (lines 259–305) is embedded as a fold over the main
edge mapping.  The destination directory is an association list from filename
to file content; `content f` is the byte content of source file `f`, and
`copyOk f` models whether `shutil.copy2` succeeds on `f` (an exception is
caught at line 298 and leaves all state except the log unchanged). -/

structure ClassState where
  missingRefs : List (Str × List Str)
  foundRefs : List (Str × Str × List Str)
  alreadySatisfiedRefs : List (Str × Str × List Str)
  destFiles : List (Str × Str)
deriving DecidableEq

/-- `os.path.exists(dest_file)` / the content of a destination file: first
matching entry of the association list. -/
def destLookup (b : Str) : List (Str × Str) → Option Str
  | [] => none
  | (k, v) :: rest => if k = b then some v else destLookup b rest

/-- The already-satisfied test of line 268:
`var_name == dependency or (dependency.endswith('.latest') and
var_name.startswith(dependency[:-7]))`. -/
def satisfiedBy (dependency var_name : Str) : Bool :=
  decide (var_name = dependency) ||
    (latest7.isSuffixOf dependency &&
      (dependency.take (dependency.length - 7)).isPrefixOf var_name)

/-- The copy of lines 292–299: copy `match_file` to the destination under its
basename unless a same-named file already exists there; a failing copy
(`copyOk` false) changes nothing. -/
def tryCopy (content : Str → Str) (copyOk : Str → Bool) (dest : List (Str × Str))
    (match_file : Str) : List (Str × Str) :=
  let b := pyBasename match_file
  if (destLookup b dest).isSome then dest
  else if copyOk match_file then dest ++ [(b, content match_file)] else dest

/-- The skip test of line 262: `not dependency or dependency.isspace()`. -/
def skipDep (dependency : Str) : Bool := dependency.isEmpty || pyIsSpace dependency

/-- One iteration of the classification loop (lines 259–305) on the pair
`(dependency, dependents)`. -/
def classifyStep (mainVarList sourceVarFiles : List Str) (destEnabled : Bool)
    (content : Str → Str) (copyOk : Str → Bool)
    (st : ClassState) (p : Str × List Str) : ClassState :=
  if skipDep p.1 then st
  else
    match mainVarList.find? (fun var_name => satisfiedBy p.1 var_name) with
    | some var_name =>
      { st with alreadySatisfiedRefs := st.alreadySatisfiedRefs ++ [(p.1, var_name, p.2)] }
    | none =>
      match find_dependency_match p.1 sourceVarFiles with
      | some match_file =>
        { st with
          foundRefs := st.foundRefs ++ [(p.1, match_file, p.2)],
          destFiles := if destEnabled then tryCopy content copyOk st.destFiles match_file
                       else st.destFiles }
      | none => { st with missingRefs := st.missingRefs ++ [(p.1, p.2)] }

/-- The classification part of `checkMissingReferences` (lines 255–305):
fold the loop over the main library's edge mapping, starting from empty
classification maps and the given initial destination-directory content. -/
def checkMissingReferences (mainVarList sourceVarFiles : List Str)
    (mainDependencies : List (Str × List Str)) (destEnabled : Bool)
    (content : Str → Str) (copyOk : Str → Bool) (dest0 : List (Str × Str)) : ClassState :=
  mainDependencies.foldl (classifyStep mainVarList sourceVarFiles destEnabled content copyOk)
    { missingRefs := [], foundRefs := [], alreadySatisfiedRefs := [], destFiles := dest0 }

/-! ### Unreferenced-package query (`main`, lines 473–475) -/

/-- `sorted(..., key=str.lower)`: comparison of the lowercased keys. -/
def lowerKeyLe (a b : Str) : Bool := !strLtB (b.map Char.toLower) (a.map Char.toLower)

/-- Lines 473–475: vars failing `check_name_variation` against the manifest
keys, intersected with those failing it against the preset keys, sorted by
lowercase name. -/
def unreferencedVars (allVarList allDepVars allDepVarsPresets : List Str) : List Str :=
  let noDependencyVar := allVarList.filter (fun var => !check_name_variation var allDepVars)
  let noDependencyPreset :=
    allVarList.filter (fun var => !check_name_variation var allDepVarsPresets)
  ((noDependencyVar.filter (fun var => decide (var ∈ noDependencyPreset))).dedup).mergeSort
    lowerKeyLe

/-! ## Characterization of the classification fold

Each loop iteration appends to exactly one classification list; the appended
chunk depends only on the element, the installed identifiers and the source
pool, never on the destination state, the copy outcomes or earlier
classifications. -/

/-- Chunk appended to `alreadySatisfiedRefs` by one iteration. -/
def satAdd (mainVarList : List Str) (p : Str × List Str) : List (Str × Str × List Str) :=
  if skipDep p.1 then []
  else
    match mainVarList.find? (fun var_name => satisfiedBy p.1 var_name) with
    | some var_name => [(p.1, var_name, p.2)]
    | none => []

/-- Chunk appended to `foundRefs` by one iteration. -/
def foundAdd (mainVarList sourceVarFiles : List Str) (p : Str × List Str) :
    List (Str × Str × List Str) :=
  if skipDep p.1 then []
  else
    match mainVarList.find? (fun var_name => satisfiedBy p.1 var_name) with
    | some _ => []
    | none =>
      match find_dependency_match p.1 sourceVarFiles with
      | some match_file => [(p.1, match_file, p.2)]
      | none => []

/-- Chunk appended to `missingRefs` by one iteration. -/
def missAdd (mainVarList sourceVarFiles : List Str) (p : Str × List Str) :
    List (Str × List Str) :=
  if skipDep p.1 then []
  else
    match mainVarList.find? (fun var_name => satisfiedBy p.1 var_name) with
    | some _ => []
    | none =>
      match find_dependency_match p.1 sourceVarFiles with
      | some _ => []
      | none => [(p.1, p.2)]

/-- Effect of one iteration on the destination directory. -/
def destStep (mainVarList sourceVarFiles : List Str) (destEnabled : Bool)
    (content : Str → Str) (copyOk : Str → Bool)
    (d : List (Str × Str)) (p : Str × List Str) : List (Str × Str) :=
  if skipDep p.1 then d
  else
    match mainVarList.find? (fun var_name => satisfiedBy p.1 var_name) with
    | some _ => d
    | none =>
      match find_dependency_match p.1 sourceVarFiles with
      | some match_file => if destEnabled then tryCopy content copyOk d match_file else d
      | none => d

/-- Concatenation of the per-element chunks. -/
def addAll {α : Type} (f : Str × List Str → List α) : List (Str × List Str) → List α
  | [] => []
  | p :: rest => f p ++ addAll f rest


/-! ## Helper lemmas -/

theorem splitOnCh_ne_nil (c : Char) (s : Str) : splitOnCh c s ≠ [] := by
  cases s with
  | nil => simp [splitOnCh]
  | cons x rest =>
    simp only [splitOnCh]
    cases h : splitOnCh c rest with
    | nil => simp
    | cons hh tt =>
      by_cases hx : x = c
      · simp [hx]
      · simp [hx]

theorem splitOnCh_length (c : Char) (s : Str) :
    (splitOnCh c s).length = s.count c + 1 := by
  induction s with
  | nil => simp [splitOnCh]
  | cons x rest ih =>
    simp only [splitOnCh]
    cases h : splitOnCh c rest with
    | nil => exact absurd h (splitOnCh_ne_nil c rest)
    | cons hh tt =>
      rw [h] at ih
      by_cases hx : x = c
      · simp [hx, List.count_cons, ← ih]
      · simp [hx, List.count_cons, ← ih]

theorem dot_mem_iff_parts (s : Str) : '.' ∈ s ↔ 1 < (splitOnDot s).length := by
  rw [splitOnDot, splitOnCh_length]
  constructor
  · intro h
    have := List.count_pos_iff.mpr h
    omega
  · intro h
    have : 0 < s.count '.' := by omega
    exact List.count_pos_iff.mp this

theorem prefix_dot_iff (base s : Str) :
    (base ++ ['.']).isPrefixOf s = true ↔ ∃ ds, s = base ++ '.' :: ds := by
  rw [List.isPrefixOf_iff_prefix]
  constructor
  · rintro ⟨t, ht⟩
    exact ⟨t, by simpa using ht.symm⟩
  · rintro ⟨ds, rfl⟩
    exact ⟨ds, by simp⟩

theorem drop_base_dot (base ds : Str) :
    (base ++ '.' :: ds).drop (base.length + 1) = ds := by
  have : base ++ '.' :: ds = (base ++ ['.']) ++ ds := by simp
  rw [this]
  have hl : (base ++ ['.']).length = base.length + 1 := by simp
  rw [← hl, List.drop_left]

theorem collect_mem (base : Str) (files : List Str) (v : Nat) (f : Str) :
    (v, f) ∈ collectMatches base files ↔
      f ∈ files ∧ ∃ ds, stemOf f = base ++ '.' :: ds ∧ pyIsDigit ds = true ∧
        v = strToNat ds := by
  rw [collectMatches, List.mem_filterMap]
  constructor
  · rintro ⟨a, ha, hfa⟩
    simp only at hfa
    by_cases hp : (base ++ ['.']).isPrefixOf (stemOf a) = true
    · obtain ⟨ds, hds⟩ := (prefix_dot_iff base (stemOf a)).mp hp
      rw [if_pos hp] at hfa
      by_cases hd : pyIsDigit ((stemOf a).drop (base.length + 1)) = true
      · rw [if_pos hd] at hfa
        simp only [Option.some.injEq, Prod.mk.injEq] at hfa
        obtain ⟨hv, rfl⟩ := hfa
        refine ⟨ha, ds, hds, ?_, ?_⟩
        · rw [hds, drop_base_dot] at hd; exact hd
        · rw [← hv, hds, drop_base_dot]
      · rw [if_neg hd] at hfa; exact absurd hfa (by simp)
    · rw [if_neg hp] at hfa; exact absurd hfa (by simp)
  · rintro ⟨hf, ds, hds, hdig, rfl⟩
    refine ⟨f, hf, ?_⟩
    have hp : (base ++ ['.']).isPrefixOf (base ++ '.' :: ds) = true :=
      (prefix_dot_iff base _).mpr ⟨ds, rfl⟩
    simp only [hds, hp, if_true, drop_base_dot, hdig]

theorem maxTup_cons_ne_none (p : Nat × Str) (rest : List (Nat × Str)) :
    maxTup (p :: rest) ≠ none := by
  simp only [maxTup]
  cases h : maxTup rest with
  | none => simp
  | some q => by_cases hlt : tupLtB p q = true <;> simp [hlt]

theorem maxTup_eq_none (l : List (Nat × Str)) : maxTup l = none ↔ l = [] := by
  cases l with
  | nil => simp [maxTup]
  | cons p rest =>
    exact ⟨fun h => absurd h (maxTup_cons_ne_none p rest), fun h => by simp at h⟩

theorem maxTup_mem (l : List (Nat × Str)) (m : Nat × Str) (h : maxTup l = some m) :
    m ∈ l := by
  induction l generalizing m with
  | nil => simp [maxTup] at h
  | cons p rest ih =>
    simp only [maxTup] at h
    cases hr : maxTup rest with
    | none =>
      simp only [hr, Option.some.injEq] at h
      subst h
      exact List.mem_cons_self _ _
    | some q =>
      simp only [hr] at h
      by_cases hlt : tupLtB p q = true
      · rw [if_pos hlt] at h
        simp only [Option.some.injEq] at h
        subst h
        exact List.mem_cons_of_mem _ (ih q hr)
      · rw [if_neg hlt] at h
        simp only [Option.some.injEq] at h
        subst h
        exact List.mem_cons_self _ _

theorem tupLtB_true_le (p q : Nat × Str) (h : tupLtB p q = true) : p.1 ≤ q.1 := by
  simp only [tupLtB, Bool.or_eq_true, Bool.and_eq_true, decide_eq_true_eq] at h
  rcases h with h | ⟨h, _⟩
  · omega
  · omega

theorem tupLtB_false_ge (p q : Nat × Str) (h : tupLtB p q = false) : q.1 ≤ p.1 := by
  simp only [tupLtB, Bool.or_eq_false_iff, decide_eq_false_iff_not] at h
  omega

theorem maxTup_max (l : List (Nat × Str)) (m : Nat × Str) (h : maxTup l = some m) :
    ∀ x ∈ l, x.1 ≤ m.1 := by
  induction l generalizing m with
  | nil => simp
  | cons p rest ih =>
    intro x hx
    simp only [maxTup] at h
    cases hr : maxTup rest with
    | none =>
      have hrest : rest = [] := (maxTup_eq_none rest).mp hr
      subst hrest
      simp only [hr, Option.some.injEq] at h
      subst h
      rcases List.mem_cons.mp hx with rfl | hx'
      · exact le_refl _
      · simp at hx'
    | some q =>
      simp only [hr] at h
      by_cases hlt : tupLtB p q = true
      · rw [if_pos hlt] at h
        simp only [Option.some.injEq] at h
        subst h
        rcases List.mem_cons.mp hx with rfl | hx'
        · exact tupLtB_true_le _ _ hlt
        · exact ih q hr x hx'
      · rw [if_neg hlt] at h
        simp only [Option.some.injEq] at h
        subst h
        rcases List.mem_cons.mp hx with rfl | hx'
        · exact le_refl _
        · have h1 := ih q hr x hx'
          have h2 := tupLtB_false_ge p q (Bool.eq_false_iff.mpr hlt)
          omega

theorem maxOfCollect (base : Str) (files : List Str) (g es : Str)
    (hg : g ∈ files) (hgs : stemOf g = base ++ '.' :: es) (hes : pyIsDigit es = true) :
    ∃ f ds, maxTup (collectMatches base files) = some (strToNat ds, f) ∧ f ∈ files ∧
      stemOf f = base ++ '.' :: ds ∧ pyIsDigit ds = true ∧
      ∀ g' es', g' ∈ files → stemOf g' = base ++ '.' :: es' →
        pyIsDigit es' = true → strToNat es' ≤ strToNat ds := by
  have hmem : (strToNat es, g) ∈ collectMatches base files :=
    (collect_mem base files _ g).mpr ⟨hg, es, hgs, hes, rfl⟩
  have hne : collectMatches base files ≠ [] := by
    intro hnil; rw [hnil] at hmem; simp at hmem
  cases hmx : maxTup (collectMatches base files) with
  | none => exact absurd ((maxTup_eq_none _).mp hmx) hne
  | some m =>
    obtain ⟨hfm, ds, hds, hdig, hv⟩ :=
      (collect_mem base files m.1 m.2).mp (maxTup_mem _ m hmx)
    refine ⟨m.2, ds, ?_, hfm, hds, hdig, ?_⟩
    · have hm : (strToNat ds, m.2) = m := by rw [← hv]
      rw [hm]
    intro g' es' hg' hgs' hes'
    have hin : (strToNat es', g') ∈ collectMatches base files :=
      (collect_mem base files _ g').mpr ⟨hg', es', hgs', hes', rfl⟩
    have hle := maxTup_max _ m hmx _ hin
    rw [hv] at hle
    exact hle

theorem latest7_length : latest7.length = 7 := by decide

/-! ## Claims C1 and C2: the dependency matcher -/

/-- **C1.** For a dependency `base ++ ".latest"` with no exact identifier match
in the candidate pool and at least one candidate of the form
`base ++ "." ++ digits`, `find_dependency_match` returns a candidate of that
form whose integer suffix is numerically maximal among all such candidates. -/
theorem latest_resolves_to_highest_numeric_version
    (base : Str) (sourceVarFiles : List Str)
    (hexact : ∀ f ∈ sourceVarFiles, stemOf f ≠ base ++ latest7)
    (g es : Str) (hg : g ∈ sourceVarFiles) (hgs : stemOf g = base ++ '.' :: es)
    (hes : pyIsDigit es = true) :
    ∃ f ds, find_dependency_match (base ++ latest7) sourceVarFiles = some f ∧
      f ∈ sourceVarFiles ∧ stemOf f = base ++ '.' :: ds ∧ pyIsDigit ds = true ∧
      ∀ g' es', g' ∈ sourceVarFiles → stemOf g' = base ++ '.' :: es' →
        pyIsDigit es' = true → strToNat es' ≤ strToNat ds := by
  have hfind : sourceVarFiles.find? (fun f => decide (stemOf f = base ++ latest7)) = none :=
    List.find?_eq_none.mpr (by intro x hx; simpa using hexact x hx)
  have hsuf : latest7.isSuffixOf (base ++ latest7) = true :=
    List.isSuffixOf_iff_suffix.mpr ⟨base, rfl⟩
  have htake : (base ++ latest7).take ((base ++ latest7).length - 7) = base := by
    have : (base ++ latest7).length - 7 = base.length := by
      simp [List.length_append, latest7_length]
    rw [this, List.take_left]
  obtain ⟨f, ds, hmax, hfmem, hfs, hds, hbound⟩ := maxOfCollect base sourceVarFiles g es hg hgs hes
  refine ⟨f, ds, ?_, hfmem, hfs, hds, hbound⟩
  simp only [find_dependency_match, hfind, hsuf, htake, if_true, hmax]

/-- **C2.** For a dependency containing a dot, with no exact identifier match
and with the `.latest` rule not applying or finding nothing,
`find_dependency_match` searches with the base name obtained by dropping the
last dot-segment and returns a candidate `base ++ "." ++ digits` with
numerically maximal integer suffix whenever one exists. -/
theorem fallback_resolves_to_highest_numeric_version
    (dependency : Str) (sourceVarFiles : List Str)
    (hdot : '.' ∈ dependency)
    (hexact : ∀ f ∈ sourceVarFiles, stemOf f ≠ dependency)
    (hnolatest : latest7.isSuffixOf dependency = false ∨
      collectMatches (dependency.take (dependency.length - 7)) sourceVarFiles = [])
    (g es : Str) (hg : g ∈ sourceVarFiles)
    (hgs : stemOf g = joinDots (splitOnDot dependency).dropLast ++ '.' :: es)
    (hes : pyIsDigit es = true) :
    ∃ f ds, find_dependency_match dependency sourceVarFiles = some f ∧
      f ∈ sourceVarFiles ∧
      stemOf f = joinDots (splitOnDot dependency).dropLast ++ '.' :: ds ∧
      pyIsDigit ds = true ∧
      ∀ g' es', g' ∈ sourceVarFiles →
        stemOf g' = joinDots (splitOnDot dependency).dropLast ++ '.' :: es' →
        pyIsDigit es' = true → strToNat es' ≤ strToNat ds := by
  have hfind : sourceVarFiles.find? (fun f => decide (stemOf f = dependency)) = none :=
    List.find?_eq_none.mpr (by intro x hx; simpa using hexact x hx)
  have hparts : 1 < (splitOnDot dependency).length := (dot_mem_iff_parts dependency).mp hdot
  obtain ⟨f, ds, hmax, hfmem, hfs, hds, hbound⟩ :=
    maxOfCollect (joinDots (splitOnDot dependency).dropLast) sourceVarFiles g es hg hgs hes
  refine ⟨f, ds, ?_, hfmem, hfs, hds, hbound⟩
  rcases hnolatest with hsuf | hempty
  · simp only [find_dependency_match, hfind, hsuf, Bool.false_eq_true, if_false, hparts,
      if_true, hmax]
  · by_cases hsuf : latest7.isSuffixOf dependency
    · simp only [find_dependency_match, hfind, hsuf, if_true, hempty, maxTup, hparts, hmax]
    · simp only [find_dependency_match, hfind, hsuf, Bool.false_eq_true, if_false, hparts,
        if_true, hmax]

/-- Witness for C1 at the spec's own example: candidates
`{Foo.Bar.1, Foo.Bar.2, Foo.Bar.10}`, query `Foo.Bar.latest`, result
`Foo.Bar.10` (numeric, not lexicographic, comparison). -/
theorem latest_resolves_to_highest_numeric_version_witness :
    find_dependency_match ("Foo.Bar".toList ++ latest7)
      ["Foo.Bar.1.var".toList, "Foo.Bar.2.var".toList, "Foo.Bar.10.var".toList]
      = some "Foo.Bar.10.var".toList ∧
    (∃ f ds, find_dependency_match ("Foo.Bar".toList ++ latest7)
        ["Foo.Bar.1.var".toList, "Foo.Bar.2.var".toList, "Foo.Bar.10.var".toList] = some f ∧
      f ∈ ["Foo.Bar.1.var".toList, "Foo.Bar.2.var".toList, "Foo.Bar.10.var".toList] ∧
      stemOf f = "Foo.Bar".toList ++ '.' :: ds ∧ pyIsDigit ds = true ∧
      ∀ g' es', g' ∈ ["Foo.Bar.1.var".toList, "Foo.Bar.2.var".toList, "Foo.Bar.10.var".toList] →
        stemOf g' = "Foo.Bar".toList ++ '.' :: es' →
        pyIsDigit es' = true → strToNat es' ≤ strToNat ds) :=
  ⟨by decide,
   latest_resolves_to_highest_numeric_version "Foo.Bar".toList
     ["Foo.Bar.1.var".toList, "Foo.Bar.2.var".toList, "Foo.Bar.10.var".toList]
     (by decide) "Foo.Bar.1.var".toList ['1'] (by decide) (by decide) (by decide)⟩

theorem mem_addAll {α : Type} (f : Str × List Str → List α)
    (l : List (Str × List Str)) (x : α) : x ∈ addAll f l ↔ ∃ p ∈ l, x ∈ f p := by
  induction l with
  | nil => simp [addAll]
  | cons p rest ih => simp [addAll, ih, List.mem_append]

theorem classifyStep_eq (mainVarList sourceVarFiles : List Str) (destEnabled : Bool)
    (content : Str → Str) (copyOk : Str → Bool) (st : ClassState) (p : Str × List Str) :
    classifyStep mainVarList sourceVarFiles destEnabled content copyOk st p =
      { missingRefs := st.missingRefs ++ missAdd mainVarList sourceVarFiles p,
        foundRefs := st.foundRefs ++ foundAdd mainVarList sourceVarFiles p,
        alreadySatisfiedRefs := st.alreadySatisfiedRefs ++ satAdd mainVarList p,
        destFiles := destStep mainVarList sourceVarFiles destEnabled content copyOk
          st.destFiles p } := by
  unfold classifyStep satAdd foundAdd missAdd destStep
  by_cases h : skipDep p.1 = true
  · simp [h]
  · rw [Bool.not_eq_true] at h
    simp only [h, Bool.false_eq_true, if_false]
    cases mainVarList.find? (fun var_name => satisfiedBy p.1 var_name) with
    | some v => simp
    | none =>
      cases find_dependency_match p.1 sourceVarFiles with
      | some mf => simp
      | none => simp

theorem run_eq (mainVarList sourceVarFiles : List Str) (destEnabled : Bool)
    (content : Str → Str) (copyOk : Str → Bool)
    (deps : List (Str × List Str)) (st : ClassState) :
    deps.foldl (classifyStep mainVarList sourceVarFiles destEnabled content copyOk) st =
      { missingRefs := st.missingRefs ++ addAll (missAdd mainVarList sourceVarFiles) deps,
        foundRefs := st.foundRefs ++ addAll (foundAdd mainVarList sourceVarFiles) deps,
        alreadySatisfiedRefs :=
          st.alreadySatisfiedRefs ++ addAll (satAdd mainVarList) deps,
        destFiles := deps.foldl
          (destStep mainVarList sourceVarFiles destEnabled content copyOk) st.destFiles } := by
  induction deps generalizing st with
  | nil => simp [addAll]
  | cons p rest ih =>
    rw [List.foldl_cons, ih, classifyStep_eq]
    simp [addAll, List.append_assoc]

theorem checkMissingReferences_eq (mainVarList sourceVarFiles : List Str)
    (deps : List (Str × List Str)) (destEnabled : Bool)
    (content : Str → Str) (copyOk : Str → Bool) (dest0 : List (Str × Str)) :
    checkMissingReferences mainVarList sourceVarFiles deps destEnabled content copyOk dest0 =
      { missingRefs := addAll (missAdd mainVarList sourceVarFiles) deps,
        foundRefs := addAll (foundAdd mainVarList sourceVarFiles) deps,
        alreadySatisfiedRefs := addAll (satAdd mainVarList) deps,
        destFiles := deps.foldl
          (destStep mainVarList sourceVarFiles destEnabled content copyOk) dest0 } := by
  unfold checkMissingReferences
  rw [run_eq]
  simp

theorem mem_satAdd (mainVarList : List Str) (p : Str × List Str) (x : Str × Str × List Str) :
    x ∈ satAdd mainVarList p ↔
      skipDep p.1 = false ∧
      ∃ v, mainVarList.find? (fun var_name => satisfiedBy p.1 var_name) = some v ∧
        x = (p.1, v, p.2) := by
  unfold satAdd
  by_cases h : skipDep p.1 = true
  · simp [h]
  · rw [Bool.not_eq_true] at h
    simp only [h, Bool.false_eq_true, if_false]
    cases hf : mainVarList.find? (fun var_name => satisfiedBy p.1 var_name) with
    | some v => simp [h]
    | none => simp [h]

theorem mem_foundAdd (mainVarList sourceVarFiles : List Str) (p : Str × List Str)
    (x : Str × Str × List Str) :
    x ∈ foundAdd mainVarList sourceVarFiles p ↔
      skipDep p.1 = false ∧
      mainVarList.find? (fun var_name => satisfiedBy p.1 var_name) = none ∧
      ∃ mf, find_dependency_match p.1 sourceVarFiles = some mf ∧ x = (p.1, mf, p.2) := by
  unfold foundAdd
  by_cases h : skipDep p.1 = true
  · simp [h]
  · rw [Bool.not_eq_true] at h
    simp only [h, Bool.false_eq_true, if_false]
    cases hf : mainVarList.find? (fun var_name => satisfiedBy p.1 var_name) with
    | some v => simp [h]
    | none =>
      cases hm : find_dependency_match p.1 sourceVarFiles with
      | some mf => simp [h]
      | none => simp [h]

theorem mem_missAdd (mainVarList sourceVarFiles : List Str) (p : Str × List Str)
    (x : Str × List Str) :
    x ∈ missAdd mainVarList sourceVarFiles p ↔
      skipDep p.1 = false ∧
      mainVarList.find? (fun var_name => satisfiedBy p.1 var_name) = none ∧
      find_dependency_match p.1 sourceVarFiles = none ∧ x = (p.1, p.2) := by
  unfold missAdd
  by_cases h : skipDep p.1 = true
  · simp [h]
  · rw [Bool.not_eq_true] at h
    simp only [h, Bool.false_eq_true, if_false]
    cases hf : mainVarList.find? (fun var_name => satisfiedBy p.1 var_name) with
    | some v => simp [h]
    | none =>
      cases hm : find_dependency_match p.1 sourceVarFiles with
      | some mf => simp [h]
      | none => simp [h]

/-- Witness for C2 at the spec's own example: candidates
`{Foo.Bar.2, Foo.Bar.5}`, query `Foo.Bar.3`, result `Foo.Bar.5`. -/
theorem fallback_resolves_to_highest_numeric_version_witness :
    find_dependency_match "Foo.Bar.3".toList
      ["Foo.Bar.2.var".toList, "Foo.Bar.5.var".toList] = some "Foo.Bar.5.var".toList ∧
    (∃ f ds, find_dependency_match "Foo.Bar.3".toList
        ["Foo.Bar.2.var".toList, "Foo.Bar.5.var".toList] = some f ∧
      f ∈ ["Foo.Bar.2.var".toList, "Foo.Bar.5.var".toList] ∧
      stemOf f = joinDots (splitOnDot "Foo.Bar.3".toList).dropLast ++ '.' :: ds ∧
      pyIsDigit ds = true ∧
      ∀ g' es', g' ∈ ["Foo.Bar.2.var".toList, "Foo.Bar.5.var".toList] →
        stemOf g' = joinDots (splitOnDot "Foo.Bar.3".toList).dropLast ++ '.' :: es' →
        pyIsDigit es' = true → strToNat es' ≤ strToNat ds) :=
  ⟨by decide,
   fallback_resolves_to_highest_numeric_version "Foo.Bar.3".toList
     ["Foo.Bar.2.var".toList, "Foo.Bar.5.var".toList]
     (by decide) (by decide) (Or.inl (by decide)) "Foo.Bar.2.var".toList ['2']
     (by decide) (by decide) (by decide)⟩
/-! ## Claims C4, C6, C8, C10: the resolution orchestrator -/

/-- **C4.** A dependency of the main edge mapping that reaches the
classification (nonempty, not whitespace-only) and is satisfied by some
installed identifier — equal to it, or, for a `.latest` name, extending the
stripped base — is recorded in `alreadySatisfiedRefs` with a satisfying
identifier and its dependent set, and is never reported Resolved or
Missing. -/
theorem already_satisfied_shortcircuits
    (mainVarList sourceVarFiles : List Str) (deps : List (Str × List Str))
    (destEnabled : Bool) (content : Str → Str) (copyOk : Str → Bool)
    (dest0 : List (Str × Str)) (D : Str) (dd : List Str)
    (hmem : (D, dd) ∈ deps) (hskip : skipDep D = false)
    (hsat : ∃ I ∈ mainVarList, satisfiedBy D I = true) :
    (∃ v ∈ mainVarList, satisfiedBy D v = true ∧
      (D, v, dd) ∈ (checkMissingReferences mainVarList sourceVarFiles deps destEnabled
        content copyOk dest0).alreadySatisfiedRefs) ∧
    (∀ f ds, (D, f, ds) ∉ (checkMissingReferences mainVarList sourceVarFiles deps destEnabled
        content copyOk dest0).foundRefs) ∧
    (∀ ds, (D, ds) ∉ (checkMissingReferences mainVarList sourceVarFiles deps destEnabled
        content copyOk dest0).missingRefs) := by
  have hfind : (mainVarList.find? (fun var_name => satisfiedBy D var_name)).isSome :=
    List.find?_isSome.mpr hsat
  obtain ⟨v, hv⟩ := Option.isSome_iff_exists.mp hfind
  rw [checkMissingReferences_eq]
  refine ⟨⟨v, List.mem_of_find?_eq_some hv, List.find?_some hv, ?_⟩, ?_, ?_⟩
  · exact (mem_addAll _ _ _).mpr ⟨(D, dd), hmem, (mem_satAdd _ _ _).mpr ⟨hskip, v, hv, rfl⟩⟩
  · intro f ds hcon
    obtain ⟨p, hp, hx⟩ := (mem_addAll _ _ _).mp hcon
    obtain ⟨hs, hnone, mf, hm, hxeq⟩ := (mem_foundAdd _ _ _ _).mp hx
    injection hxeq with h1 h2
    rw [← h1] at hnone
    exact Option.noConfusion (hnone ▸ hv)
  · intro ds hcon
    obtain ⟨p, hp, hx⟩ := (mem_addAll _ _ _).mp hcon
    obtain ⟨hs, hnone, hfdm, hxeq⟩ := (mem_missAdd _ _ _ _).mp hx
    injection hxeq with h1 h2
    rw [← h1] at hnone
    exact Option.noConfusion (hnone ▸ hv)

/-- Witness for C4: installed `Foo.Barz.2` satisfies `Foo.Barz.2` exactly; the
dependency is recorded AlreadySatisfied and appears in neither other list. -/
theorem already_satisfied_shortcircuits_witness :
    (∃ v ∈ ["Foo.Barz.2".toList], satisfiedBy "Foo.Barz.2".toList v = true ∧
      ("Foo.Barz.2".toList, v, ["X.Y.1.var".toList]) ∈
        (checkMissingReferences ["Foo.Barz.2".toList] [] [("Foo.Barz.2".toList,
          ["X.Y.1.var".toList])] false (fun _ => []) (fun _ => true)
          []).alreadySatisfiedRefs) ∧
    (∀ f ds, ("Foo.Barz.2".toList, f, ds) ∉
      (checkMissingReferences ["Foo.Barz.2".toList] [] [("Foo.Barz.2".toList,
        ["X.Y.1.var".toList])] false (fun _ => []) (fun _ => true) []).foundRefs) ∧
    (∀ ds, ("Foo.Barz.2".toList, ds) ∉
      (checkMissingReferences ["Foo.Barz.2".toList] [] [("Foo.Barz.2".toList,
        ["X.Y.1.var".toList])] false (fun _ => []) (fun _ => true) []).missingRefs) :=
  already_satisfied_shortcircuits ["Foo.Barz.2".toList] [] [("Foo.Barz.2".toList,
    ["X.Y.1.var".toList])] false (fun _ => []) (fun _ => true) [] "Foo.Barz.2".toList
    ["X.Y.1.var".toList] (by decide) (by decide) ⟨"Foo.Barz.2".toList, by decide, by decide⟩

/-- **C6.** An empty or whitespace-only dependency name is classified into none
of the three outputs, and its loop iteration is a complete no-op (in
particular, it never triggers a copy). -/
theorem whitespace_dependency_never_classified
    (mainVarList sourceVarFiles : List Str) (deps : List (Str × List Str))
    (destEnabled : Bool) (content : Str → Str) (copyOk : Str → Bool)
    (dest0 : List (Str × Str)) (D : Str) (hD : skipDep D = true) :
    (∀ v ds, (D, v, ds) ∉ (checkMissingReferences mainVarList sourceVarFiles deps destEnabled
        content copyOk dest0).alreadySatisfiedRefs) ∧
    (∀ f ds, (D, f, ds) ∉ (checkMissingReferences mainVarList sourceVarFiles deps destEnabled
        content copyOk dest0).foundRefs) ∧
    (∀ ds, (D, ds) ∉ (checkMissingReferences mainVarList sourceVarFiles deps destEnabled
        content copyOk dest0).missingRefs) ∧
    (∀ st ds, classifyStep mainVarList sourceVarFiles destEnabled content copyOk
        st (D, ds) = st) := by
  rw [checkMissingReferences_eq]
  refine ⟨?_, ?_, ?_, ?_⟩
  · intro v ds hcon
    obtain ⟨p, hp, hx⟩ := (mem_addAll _ _ _).mp hcon
    obtain ⟨hs, w, hw, hxeq⟩ := (mem_satAdd _ _ _).mp hx
    injection hxeq with h1 h2
    rw [← h1] at hs
    rw [hD] at hs
    exact Bool.noConfusion hs
  · intro f ds hcon
    obtain ⟨p, hp, hx⟩ := (mem_addAll _ _ _).mp hcon
    obtain ⟨hs, hnone, mf, hm, hxeq⟩ := (mem_foundAdd _ _ _ _).mp hx
    injection hxeq with h1 h2
    rw [← h1] at hs
    rw [hD] at hs
    exact Bool.noConfusion hs
  · intro ds hcon
    obtain ⟨p, hp, hx⟩ := (mem_addAll _ _ _).mp hcon
    obtain ⟨hs, hnone, hfdm, hxeq⟩ := (mem_missAdd _ _ _ _).mp hx
    injection hxeq with h1 h2
    rw [← h1] at hs
    rw [hD] at hs
    exact Bool.noConfusion hs
  · intro st ds
    unfold classifyStep
    simp [hD]

/-- Witness for C6 at the whitespace name `" "`. -/
theorem whitespace_dependency_never_classified_witness :
    (∀ v ds, ([' '], v, ds) ∉ (checkMissingReferences [] ["A.B.1.var".toList]
        [([' '], ["X.Y.1.var".toList])] false (fun _ => []) (fun _ => true)
        []).alreadySatisfiedRefs) ∧
    (∀ f ds, ([' '], f, ds) ∉ (checkMissingReferences [] ["A.B.1.var".toList]
        [([' '], ["X.Y.1.var".toList])] false (fun _ => []) (fun _ => true) []).foundRefs) ∧
    (∀ ds, ([' '], ds) ∉ (checkMissingReferences [] ["A.B.1.var".toList]
        [([' '], ["X.Y.1.var".toList])] false (fun _ => []) (fun _ => true) []).missingRefs) ∧
    (∀ st ds, classifyStep [] ["A.B.1.var".toList] false (fun _ => []) (fun _ => true)
        st ([' '], ds) = st) :=
  whitespace_dependency_never_classified [] ["A.B.1.var".toList]
    [([' '], ["X.Y.1.var".toList])] false (fun _ => []) (fun _ => true) [] [' '] (by decide)

/-- **C8.** A dependency that reaches the matcher and gets a candidate is
recorded Resolved with the matched file and its dependent set, for every
destination configuration, copy outcome and destination state alike; all three
classification lists are independent of those copy parameters. -/
theorem resolved_recorded_regardless_of_copy
    (mainVarList sourceVarFiles : List Str) (deps : List (Str × List Str))
    (D : Str) (dd : List Str) (f : Str)
    (hmem : (D, dd) ∈ deps) (hskip : skipDep D = false)
    (hnosat : mainVarList.find? (fun var_name => satisfiedBy D var_name) = none)
    (hmatch : find_dependency_match D sourceVarFiles = some f) :
    ∀ destEnabled content copyOk dest0 destEnabled' content' copyOk' dest0',
      (D, f, dd) ∈ (checkMissingReferences mainVarList sourceVarFiles deps destEnabled
        content copyOk dest0).foundRefs ∧
      (∀ ds, (D, ds) ∉ (checkMissingReferences mainVarList sourceVarFiles deps destEnabled
        content copyOk dest0).missingRefs) ∧
      (checkMissingReferences mainVarList sourceVarFiles deps destEnabled content copyOk
          dest0).foundRefs =
        (checkMissingReferences mainVarList sourceVarFiles deps destEnabled' content' copyOk'
          dest0').foundRefs ∧
      (checkMissingReferences mainVarList sourceVarFiles deps destEnabled content copyOk
          dest0).missingRefs =
        (checkMissingReferences mainVarList sourceVarFiles deps destEnabled' content' copyOk'
          dest0').missingRefs ∧
      (checkMissingReferences mainVarList sourceVarFiles deps destEnabled content copyOk
          dest0).alreadySatisfiedRefs =
        (checkMissingReferences mainVarList sourceVarFiles deps destEnabled' content' copyOk'
          dest0').alreadySatisfiedRefs := by
  intro destEnabled content copyOk dest0 destEnabled' content' copyOk' dest0'
  simp only [checkMissingReferences_eq]
  refine ⟨?_, ?_, trivial, trivial, trivial⟩
  · exact (mem_addAll _ _ _).mpr
      ⟨(D, dd), hmem, (mem_foundAdd _ _ _ _).mpr ⟨hskip, hnosat, f, hmatch, rfl⟩⟩
  · intro ds hcon
    obtain ⟨p, hp, hx⟩ := (mem_addAll _ _ _).mp hcon
    obtain ⟨hs, hnone, hfdm, hxeq⟩ := (mem_missAdd _ _ _ _).mp hx
    injection hxeq with h1 h2
    rw [← h1] at hfdm
    exact Option.noConfusion (hmatch.symm.trans hfdm)

/-- Witness for C8: `Bob.Skin.latest` resolves to `Bob.Skin.4` from the source
pool and stays Resolved for two different copy configurations. -/
theorem resolved_recorded_regardless_of_copy_witness :
    ("Bob.Skin.latest".toList, "Bob.Skin.4.var".toList, ["Alice.Hair.3.var".toList]) ∈
      (checkMissingReferences ["Alice.Hair.3".toList]
        ["Bob.Skin.1.var".toList, "Bob.Skin.4.var".toList]
        [("Bob.Skin.latest".toList, ["Alice.Hair.3.var".toList])] true (fun _ => ['z'])
        (fun _ => false) []).foundRefs ∧
    (∀ ds, ("Bob.Skin.latest".toList, ds) ∉ (checkMissingReferences ["Alice.Hair.3".toList]
        ["Bob.Skin.1.var".toList, "Bob.Skin.4.var".toList]
        [("Bob.Skin.latest".toList, ["Alice.Hair.3.var".toList])] true (fun _ => ['z'])
        (fun _ => false) []).missingRefs) ∧
    (checkMissingReferences ["Alice.Hair.3".toList]
        ["Bob.Skin.1.var".toList, "Bob.Skin.4.var".toList]
        [("Bob.Skin.latest".toList, ["Alice.Hair.3.var".toList])] true (fun _ => ['z'])
        (fun _ => false) []).foundRefs =
      (checkMissingReferences ["Alice.Hair.3".toList]
        ["Bob.Skin.1.var".toList, "Bob.Skin.4.var".toList]
        [("Bob.Skin.latest".toList, ["Alice.Hair.3.var".toList])] false (fun _ => [])
        (fun _ => true) [("q".toList, "w".toList)]).foundRefs ∧
    (checkMissingReferences ["Alice.Hair.3".toList]
        ["Bob.Skin.1.var".toList, "Bob.Skin.4.var".toList]
        [("Bob.Skin.latest".toList, ["Alice.Hair.3.var".toList])] true (fun _ => ['z'])
        (fun _ => false) []).missingRefs =
      (checkMissingReferences ["Alice.Hair.3".toList]
        ["Bob.Skin.1.var".toList, "Bob.Skin.4.var".toList]
        [("Bob.Skin.latest".toList, ["Alice.Hair.3.var".toList])] false (fun _ => [])
        (fun _ => true) [("q".toList, "w".toList)]).missingRefs ∧
    (checkMissingReferences ["Alice.Hair.3".toList]
        ["Bob.Skin.1.var".toList, "Bob.Skin.4.var".toList]
        [("Bob.Skin.latest".toList, ["Alice.Hair.3.var".toList])] true (fun _ => ['z'])
        (fun _ => false) []).alreadySatisfiedRefs =
      (checkMissingReferences ["Alice.Hair.3".toList]
        ["Bob.Skin.1.var".toList, "Bob.Skin.4.var".toList]
        [("Bob.Skin.latest".toList, ["Alice.Hair.3.var".toList])] false (fun _ => [])
        (fun _ => true) [("q".toList, "w".toList)]).alreadySatisfiedRefs :=
  resolved_recorded_regardless_of_copy ["Alice.Hair.3".toList]
    ["Bob.Skin.1.var".toList, "Bob.Skin.4.var".toList]
    [("Bob.Skin.latest".toList, ["Alice.Hair.3.var".toList])]
    "Bob.Skin.latest".toList ["Alice.Hair.3.var".toList] "Bob.Skin.4.var".toList
    (by decide) (by decide) (by decide) (by decide)
    true (fun _ => ['z']) (fun _ => false) [] false (fun _ => [])
    (fun _ => true) [("q".toList, "w".toList)]

/-- **C10.** The already-satisfied `.latest` test (line 268) requires only that
the installed identifier start with the stripped base — no following dot — so
installed `Foo.Barber.2` satisfies dependency `Foo.Bar.latest` and the
dependency is classified AlreadySatisfied, while the source matcher
(lines 185–191), which requires the base to be followed by `'.'`, rejects the
same candidate and returns no match: the two `.latest` tests differ. -/
theorem latest_check_accepts_prefix_without_dot :
    satisfiedBy "Foo.Bar.latest".toList "Foo.Barber.2".toList = true ∧
    (checkMissingReferences ["Foo.Barber.2".toList] ["Foo.Barber.2.var".toList]
        [("Foo.Bar.latest".toList, ["Alice.Hair.3.var".toList])] false (fun _ => [])
        (fun _ => true) []).alreadySatisfiedRefs =
      [("Foo.Bar.latest".toList, "Foo.Barber.2".toList, ["Alice.Hair.3.var".toList])] ∧
    find_dependency_match "Foo.Bar.latest".toList ["Foo.Barber.2.var".toList] = none := by
  refine ⟨by decide, by decide, by decide⟩

/-! ## Claim C7: the copy step never overwrites and is idempotent -/

theorem destLookup_append_some (b : Str) (c : Str) (d t : List (Str × Str))
    (h : destLookup b d = some c) : destLookup b (d ++ t) = some c := by
  induction d with
  | nil => simp [destLookup] at h
  | cons kv rest ih =>
    obtain ⟨k, v⟩ := kv
    simp only [destLookup, List.cons_append] at h ⊢
    by_cases hk : k = b
    · rw [if_pos hk] at h ⊢
      exact h
    · rw [if_neg hk] at h ⊢
      exact ih h

theorem destLookup_append_isSome (b : Str) (d t : List (Str × Str))
    (h : (destLookup b d).isSome = true) : (destLookup b (d ++ t)).isSome = true := by
  obtain ⟨c, hc⟩ := Option.isSome_iff_exists.mp h
  rw [destLookup_append_some b c d t hc]
  rfl

theorem destLookup_append_self (b : Str) (c : Str) (d : List (Str × Str))
    (h : destLookup b d = none) : destLookup b (d ++ [(b, c)]) = some c := by
  induction d with
  | nil => simp [destLookup]
  | cons kv rest ih =>
    obtain ⟨k, v⟩ := kv
    simp only [destLookup, List.cons_append] at h ⊢
    by_cases hk : k = b
    · rw [if_pos hk] at h
      exact Option.noConfusion h
    · rw [if_neg hk] at h ⊢
      exact ih h

theorem tryCopy_append (content : Str → Str) (copyOk : Str → Bool)
    (d : List (Str × Str)) (mf : Str) :
    ∃ t, tryCopy content copyOk d mf = d ++ t := by
  unfold tryCopy
  by_cases hl : (destLookup (pyBasename mf) d).isSome = true
  · exact ⟨[], by simp [hl]⟩
  · by_cases hok : copyOk mf = true
    · exact ⟨[(pyBasename mf, content mf)], by simp [hl, hok]⟩
    · exact ⟨[], by simp [hl, hok]⟩

theorem tryCopy_lookup_isSome (content : Str → Str) (d : List (Str × Str)) (mf : Str) :
    (destLookup (pyBasename mf) (tryCopy content (fun _ => true) d mf)).isSome = true := by
  unfold tryCopy
  by_cases hl : (destLookup (pyBasename mf) d).isSome = true
  · simp [hl]
  · simp only [hl, Bool.false_eq_true, if_false, if_true]
    have hn : destLookup (pyBasename mf) d = none := by
      cases h : destLookup (pyBasename mf) d with
      | none => rfl
      | some c => rw [h] at hl; exact absurd rfl hl
    rw [destLookup_append_self _ _ _ hn]
    rfl

theorem destStep_append (mainVarList sourceVarFiles : List Str) (destEnabled : Bool)
    (content : Str → Str) (copyOk : Str → Bool) (d : List (Str × Str))
    (p : Str × List Str) :
    ∃ t, destStep mainVarList sourceVarFiles destEnabled content copyOk d p = d ++ t := by
  unfold destStep
  by_cases h : skipDep p.1 = true
  · exact ⟨[], by simp [h]⟩
  · rw [Bool.not_eq_true] at h
    simp only [h, Bool.false_eq_true, if_false]
    cases mainVarList.find? (fun var_name => satisfiedBy p.1 var_name) with
    | some v => exact ⟨[], by simp⟩
    | none =>
      cases find_dependency_match p.1 sourceVarFiles with
      | none => exact ⟨[], by simp⟩
      | some mf =>
        by_cases hde : destEnabled = true
        · simp only [hde, if_true]
          exact tryCopy_append content copyOk d mf
        · rw [Bool.not_eq_true] at hde
          exact ⟨[], by simp [hde]⟩

theorem foldl_destStep_append (mainVarList sourceVarFiles : List Str) (destEnabled : Bool)
    (content : Str → Str) (copyOk : Str → Bool) (deps : List (Str × List Str)) :
    ∀ d, ∃ t, deps.foldl (destStep mainVarList sourceVarFiles destEnabled content copyOk) d
      = d ++ t := by
  induction deps with
  | nil => intro d; exact ⟨[], by simp⟩
  | cons p rest ih =>
    intro d
    obtain ⟨t1, h1⟩ := destStep_append mainVarList sourceVarFiles destEnabled content copyOk d p
    obtain ⟨t2, h2⟩ :=
      ih (destStep mainVarList sourceVarFiles destEnabled content copyOk d p)
    exact ⟨t1 ++ t2, by rw [List.foldl_cons, h2, h1, List.append_assoc]⟩

theorem foldl_destStep_covers (mainVarList sourceVarFiles : List Str)
    (content : Str → Str) (deps : List (Str × List Str)) :
    ∀ d p, p ∈ deps → ∀ mf, skipDep p.1 = false →
      mainVarList.find? (fun var_name => satisfiedBy p.1 var_name) = none →
      find_dependency_match p.1 sourceVarFiles = some mf →
      (destLookup (pyBasename mf) (deps.foldl
        (destStep mainVarList sourceVarFiles true content (fun _ => true)) d)).isSome
        = true := by
  induction deps with
  | nil => intro d p hp; simp at hp
  | cons q rest ih =>
    intro d p hp mf hskip hnone hmatch
    rw [List.foldl_cons]
    rcases List.mem_cons.mp hp with rfl | hp'
    · have hstep : destStep mainVarList sourceVarFiles true content (fun _ => true) d p =
          tryCopy content (fun _ => true) d mf := by
        unfold destStep
        simp [hskip, hnone, hmatch]
      rw [hstep]
      obtain ⟨t, ht⟩ := foldl_destStep_append mainVarList sourceVarFiles true content
        (fun _ => true) rest (tryCopy content (fun _ => true) d mf)
      rw [ht]
      exact destLookup_append_isSome _ _ _ (tryCopy_lookup_isSome content d mf)
    · exact ih _ p hp' mf hskip hnone hmatch

theorem foldl_destStep_fix (mainVarList sourceVarFiles : List Str)
    (content : Str → Str) (deps : List (Str × List Str)) (d : List (Str × Str))
    (hcov : ∀ p ∈ deps, ∀ mf, skipDep p.1 = false →
      mainVarList.find? (fun var_name => satisfiedBy p.1 var_name) = none →
      find_dependency_match p.1 sourceVarFiles = some mf →
      (destLookup (pyBasename mf) d).isSome = true) :
    deps.foldl (destStep mainVarList sourceVarFiles true content (fun _ => true)) d = d := by
  induction deps with
  | nil => simp
  | cons p rest ih =>
    rw [List.foldl_cons]
    have hstep : destStep mainVarList sourceVarFiles true content (fun _ => true) d p = d := by
      unfold destStep
      by_cases h1 : skipDep p.1 = true
      · simp [h1]
      · rw [Bool.not_eq_true] at h1
        simp only [h1, Bool.false_eq_true, if_false]
        cases hf : mainVarList.find? (fun var_name => satisfiedBy p.1 var_name) with
        | some v => simp
        | none =>
          cases hm : find_dependency_match p.1 sourceVarFiles with
          | none => simp
          | some mf =>
            simp only [if_true]
            unfold tryCopy
            have hsome := hcov p (List.mem_cons_self p rest) mf h1 hf hm
            simp [hsome]
    rw [hstep]
    exact ih (fun q hq => hcov q (List.mem_cons_of_mem _ hq))

/-- **C7.** With a destination configured (and copies succeeding), an entry
already present in the destination keeps its exact content through a
materialization run, the destination only grows by appended new files, and a
second run over the same dependencies starting from the first run's
destination leaves the destination unchanged. -/
theorem copy_preserves_existing_and_is_idempotent
    (mainVarList sourceVarFiles : List Str) (deps : List (Str × List Str))
    (content : Str → Str) (dest0 : List (Str × Str)) (b c : Str)
    (hbc : destLookup b dest0 = some c) :
    destLookup b (checkMissingReferences mainVarList sourceVarFiles deps true content
      (fun _ => true) dest0).destFiles = some c ∧
    (∃ t, (checkMissingReferences mainVarList sourceVarFiles deps true content
      (fun _ => true) dest0).destFiles = dest0 ++ t) ∧
    (checkMissingReferences mainVarList sourceVarFiles deps true content (fun _ => true)
        (checkMissingReferences mainVarList sourceVarFiles deps true content
          (fun _ => true) dest0).destFiles).destFiles =
      (checkMissingReferences mainVarList sourceVarFiles deps true content
        (fun _ => true) dest0).destFiles := by
  simp only [checkMissingReferences_eq]
  obtain ⟨t, ht⟩ := foldl_destStep_append mainVarList sourceVarFiles true content
    (fun _ => true) deps dest0
  refine ⟨?_, ⟨t, ht⟩, ?_⟩
  · rw [ht]
    exact destLookup_append_some b c dest0 t hbc
  · apply foldl_destStep_fix
    intro p hp mf h1 h2 h3
    exact foldl_destStep_covers mainVarList sourceVarFiles content deps dest0 p hp mf h1 h2 h3

/-- Witness for C7: the pre-existing destination entry survives a run that
copies `Bob.Skin.4.var`, and a second run changes nothing. -/
theorem copy_preserves_existing_and_is_idempotent_witness :
    destLookup "old.var".toList (checkMissingReferences []
      ["Bob.Skin.4.var".toList] [("Bob.Skin.latest".toList, ["Alice.Hair.3.var".toList])]
      true (fun _ => ['z']) (fun _ => true)
      [("old.var".toList, "data".toList)]).destFiles = some "data".toList ∧
    (∃ t, (checkMissingReferences [] ["Bob.Skin.4.var".toList]
      [("Bob.Skin.latest".toList, ["Alice.Hair.3.var".toList])] true (fun _ => ['z'])
      (fun _ => true) [("old.var".toList, "data".toList)]).destFiles =
      [("old.var".toList, "data".toList)] ++ t) ∧
    (checkMissingReferences [] ["Bob.Skin.4.var".toList]
        [("Bob.Skin.latest".toList, ["Alice.Hair.3.var".toList])] true (fun _ => ['z'])
        (fun _ => true) (checkMissingReferences [] ["Bob.Skin.4.var".toList]
          [("Bob.Skin.latest".toList, ["Alice.Hair.3.var".toList])] true (fun _ => ['z'])
          (fun _ => true) [("old.var".toList, "data".toList)]).destFiles).destFiles =
      (checkMissingReferences [] ["Bob.Skin.4.var".toList]
        [("Bob.Skin.latest".toList, ["Alice.Hair.3.var".toList])] true (fun _ => ['z'])
        (fun _ => true) [("old.var".toList, "data".toList)]).destFiles :=
  copy_preserves_existing_and_is_idempotent [] ["Bob.Skin.4.var".toList]
    [("Bob.Skin.latest".toList, ["Alice.Hair.3.var".toList])] (fun _ => ['z'])
    [("old.var".toList, "data".toList)] "old.var".toList "data".toList (by decide)

/-! ## Claim C5: the unreferenced-package query -/

/-- **C5.** An installed identifier appears in the unreferenced list exactly
when it fails the name-variation reference test against the manifest edge keys
AND against the preset edge keys; a reference in either mapping alone removes
it from the list. -/
theorem unreferenced_iff_fails_both
    (allVarList allDepVars allDepVarsPresets : List Str) (v : Str)
    (hv : v ∈ allVarList) :
    v ∈ unreferencedVars allVarList allDepVars allDepVarsPresets ↔
      (check_name_variation v allDepVars = false ∧
       check_name_variation v allDepVarsPresets = false) := by
  unfold unreferencedVars
  rw [(List.mergeSort_perm _ _).mem_iff, List.mem_dedup, List.mem_filter]
  simp only [List.mem_filter, decide_eq_true_eq, Bool.not_eq_true']
  constructor
  · rintro ⟨⟨_, h1⟩, _, h2⟩
    exact ⟨h1, h2⟩
  · rintro ⟨h1, h2⟩
    exact ⟨⟨hv, h1⟩, ⟨hv, h2⟩⟩

/-- Witness for C5: `A.B.1` is referenced only by the preset mapping (via its
`.latest` variation) and is therefore excluded from the unreferenced list,
while `C.D.2`, referenced by neither mapping, is included. -/
theorem unreferenced_iff_fails_both_witness :
    ("A.B.1".toList ∈ unreferencedVars ["A.B.1".toList, "C.D.2".toList] []
        ["A.B.latest".toList] ↔
      (check_name_variation "A.B.1".toList [] = false ∧
       check_name_variation "A.B.1".toList ["A.B.latest".toList] = false)) ∧
    "A.B.1".toList ∉ unreferencedVars ["A.B.1".toList, "C.D.2".toList] []
      ["A.B.latest".toList] ∧
    "C.D.2".toList ∈ unreferencedVars ["A.B.1".toList, "C.D.2".toList] []
      ["A.B.latest".toList] :=
  ⟨unreferenced_iff_fails_both ["A.B.1".toList, "C.D.2".toList] [] ["A.B.latest".toList]
     "A.B.1".toList (by decide),
   fun h => absurd ((unreferenced_iff_fails_both ["A.B.1".toList, "C.D.2".toList] []
     ["A.B.latest".toList] "A.B.1".toList (by decide)).mp h) (by decide),
   (unreferenced_iff_fails_both ["A.B.1".toList, "C.D.2".toList] [] ["A.B.latest".toList]
     "C.D.2".toList (by decide)).mpr ⟨by decide, by decide⟩⟩

/-! ## Claim C9: failed manifest reads in the package index builder -/

/-- **C9.** A package file whose manifest read fails still contributes its
identifier (filename with extension stripped) to the var list, and the edge
mapping is exactly the one computed from the remaining files: the failed file
contributes no edges and the scan of the other files is unaffected. -/
theorem failed_manifest_contributes_identifier_but_no_edges
    (manifest : Str → Option (List Str)) (vs1 vs2 : List Str) (v : Str)
    (h : manifest v = none) :
    stemOf v ∈ (getAllVars manifest (vs1 ++ v :: vs2)).1 ∧
    (getAllVars manifest (vs1 ++ v :: vs2)).2 = (getAllVars manifest (vs1 ++ vs2)).2 := by
  constructor
  · simp only [getAllVars, List.map_append, List.map_cons]
    exact List.mem_append.mpr (Or.inr (List.mem_cons_self _ _))
  · simp only [getAllVars]
    rw [List.foldl_append, List.foldl_append, List.foldl_cons, h]

/-- Witness for C9: with every manifest read failing, the single file
`A.B.1.var` still contributes identifier `A.B.1` and no edges. -/
theorem failed_manifest_contributes_identifier_but_no_edges_witness :
    stemOf "A.B.1.var".toList ∈
      (getAllVars (fun _ => none) ([] ++ "A.B.1.var".toList :: [])).1 ∧
    (getAllVars (fun _ => none) ([] ++ "A.B.1.var".toList :: [])).2 =
      (getAllVars (fun _ => none) ([] ++ [])).2 :=
  failed_manifest_contributes_identifier_but_no_edges (fun _ => none) [] []
    "A.B.1.var".toList rfl

/-! ## Claim C3: the preset scanner's capture -/

theorem startsSC_slash (r : Str) : startsSC ('/' :: r) = false := by
  cases r with
  | nil => rfl
  | cons c2 r' => rfl

theorem lastSC_slash_none (r : Str) (h : lastSC r = none) : lastSC ('/' :: r) = none := by
  simp [lastSC, h, startsSC_slash]

theorem lastSC_cons (c : Char) (rest : Str) :
    lastSC (c :: rest) =
      (match lastSC rest with
       | some p => some (p + 1)
       | none => if startsSC (c :: rest) then some 0 else none) := rfl

theorem lastSC_concat (g r : Str) (h : lastSC r = none) :
    lastSC (g ++ ':' :: '/' :: r) = some g.length := by
  induction g with
  | nil =>
    show lastSC (':' :: '/' :: r) = some 0
    rw [lastSC_cons, lastSC_slash_none r h]
    rfl
  | cons x g' ih =>
    show lastSC (x :: (g' ++ ':' :: '/' :: r)) = some (g'.length + 1)
    rw [lastSC_cons, ih]

theorem groupOf_decomp (g r : Str) (hg : g ≠ []) (h : lastSC r = none) :
    groupOf (g ++ ':' :: '/' :: r) = some g := by
  unfold groupOf
  simp only [lastSC_concat g r h]
  rw [if_pos (show 1 ≤ g.length from List.length_pos.mpr hg), List.take_left]

theorem splitOnCh_not_mem (c : Char) (s : Str) (h : c ∉ s) : splitOnCh c s = [s] := by
  induction s with
  | nil => rfl
  | cons x rest ih =>
    have hx : x ≠ c := fun hxc => h (hxc ▸ List.mem_cons_self x rest)
    have hr : c ∉ rest := fun hc => h (List.mem_cons_of_mem x hc)
    simp only [splitOnCh, ih hr]
    simp [hx]

theorem splitOnCh_cons (c x : Char) (rest : Str) :
    splitOnCh c (x :: rest) =
      (match splitOnCh c rest with
       | [] => [[]]
       | h :: t => if x = c then [] :: h :: t else (x :: h) :: t) := rfl

theorem splitOnCh_append (c : Char) (s t : Str) (h : c ∉ s) :
    splitOnCh c (s ++ c :: t) = s :: splitOnCh c t := by
  induction s with
  | nil =>
    rw [List.nil_append, splitOnCh_cons]
    cases hsp : splitOnCh c t with
    | nil => exact absurd hsp (splitOnCh_ne_nil c t)
    | cons hh tt => simp
  | cons x rest ih =>
    have hx : x ≠ c := fun hxc => h (hxc ▸ List.mem_cons_self x rest)
    have hr : c ∉ rest := fun hc => h (List.mem_cons_of_mem x hc)
    rw [List.cons_append, splitOnCh_cons, ih hr]
    simp [hx]

theorem scanSegs_false_cons (x y : Str) (t : List Str) :
    scanSegs false (x :: y :: t) = scanSegs true (y :: t) := rfl

theorem scanSegs_true_cons (content y : Str) (t : List Str) :
    scanSegs true (content :: y :: t) =
      (match groupOf content with
       | some g => g :: scanSegs false (y :: t)
       | none => scanSegs true (y :: t)) := rfl

/-- **C3, counterexample.** On the preset text `"a:/b:/c"` the scanner's
regex captures `a:/b` — the content up to the LAST `:/` (the group is
greedy) — not `a` as the claim's first-occurrence rule would give. -/
theorem preset_capture_counterexample :
    getPresetDependencies ['"', 'a', ':', '/', 'b', ':', '/', 'c', '"']
      = [['a', ':', '/', 'b']] ∧
    getPresetDependencies ['"', 'a', ':', '/', 'b', ':', '/', 'c', '"'] ≠ [['a']] := by
  refine ⟨by decide, by decide⟩

/-- **C3, amended.** Inside a double-quoted run of the form
`g ++ ":/" ++ r` (a nonempty name part `g`, remainder `r` containing no
further `:/`), the scanner extracts exactly `g` — the portion of the quoted
content up to the LAST occurrence of `:/` — and then continues with the rest
of the text. -/
theorem preset_capture_ends_at_last_separator (g r tail : Str) (hg : g ≠ [])
    (h1 : '"' ∉ g) (h2 : '"' ∉ r) (h3 : lastSC r = none) :
    scanPresets ('"' :: (g ++ ':' :: '/' :: r) ++ '"' :: tail) = g :: scanPresets tail := by
  have hcq : '"' ∉ g ++ ':' :: '/' :: r := by
    intro hmem
    rcases List.mem_append.mp hmem with hmg | hmr
    · exact h1 hmg
    · simp only [List.mem_cons] at hmr
      rcases hmr with h' | h' | h'
      · exact absurd h' (by decide)
      · exact absurd h' (by decide)
      · exact h2 h'
  have hshape : ('"' :: (g ++ ':' :: '/' :: r)) ++ '"' :: tail
      = ([] : Str) ++ '"' :: ((g ++ ':' :: '/' :: r) ++ '"' :: tail) := by simp
  have hsplit : splitOnQuote (('"' :: (g ++ ':' :: '/' :: r)) ++ '"' :: tail)
      = [] :: (g ++ ':' :: '/' :: r) :: splitOnQuote tail := by
    unfold splitOnQuote
    rw [hshape, splitOnCh_append '"' [] _ (by simp), splitOnCh_append '"' _ _ hcq]
  obtain ⟨s1, S', hS⟩ : ∃ a t, splitOnQuote tail = a :: t := by
    cases hq : splitOnQuote tail with
    | nil => exact absurd hq (splitOnCh_ne_nil '"' tail)
    | cons a t => exact ⟨a, t, rfl⟩
  unfold scanPresets
  rw [hsplit, hS, scanSegs_false_cons, scanSegs_true_cons]
  simp only [groupOf_decomp g r hg h3]

/-- Witness for the amended C3 at `g = "a:/b"`-style input:
text `"ab:/c:/d"` extracts `ab:/c` and scanning continues with the tail. -/
theorem preset_capture_ends_at_last_separator_witness :
    scanPresets ('"' :: (['a', 'b', ':', '/', 'c'] ++ ':' :: '/' :: ['d']) ++ '"' :: [])
      = ['a', 'b', ':', '/', 'c'] :: scanPresets [] :=
  preset_capture_ends_at_last_separator ['a', 'b', ':', '/', 'c'] ['d'] []
    (by decide) (by decide) (by decide) (by decide)
